import Mathlib

/-!
Verification of the document layout and pagination engine of the
GlobalSolar PDF workflow (`src/proposta-solar-pdf.ts`).

The TypeScript module is shallowly embedded: JavaScript numbers are
modelled as rationals, strings drawn on the page are Lean strings, the
pdf-lib drawing surface is modelled as a trace of drawing operations per
page, and the external collaborators (font metrics, locale formatting,
image codecs) are abstract function parameters collected in `Env`.
-/

namespace SolarPDF

/-! ## Text tokenisation: JavaScript `text.split(/\s+/)`

`wrapLines` starts with `text.split(/\s+/)`.  JavaScript `split` on the
regular expression of one-or-more whitespace cuts the string at every
maximal whitespace run and keeps the (possibly empty) pieces between the
cuts, so a leading run contributes a leading empty token, a trailing run
contributes a trailing empty token, and the empty string yields one
empty token.  Characters are modelled as `Char` lists. -/

/-- Whitespace test for the regex class of whitespace characters. -/
def isWs (c : Char) : Bool :=
  c = ' ' || c = '\t' || c = '\n' || c = '\r' || c = '\x0b' || c = '\x0c'

/-- `dropWhile` never lengthens a list (used for termination). -/
theorem dropWhile_len_le {α : Type} (p : α → Bool) :
    ∀ l : List α, (l.dropWhile p).length ≤ l.length := by
  intro l
  induction l with
  | nil => simp [List.dropWhile]
  | cons c rest ih =>
    by_cases h : p c
    · simpa [List.dropWhile, h] using Nat.le_succ_of_le ih
    · simp [List.dropWhile, h]

/-- One splitting step: accumulate the current token (reversed) until a
whitespace character is met, then emit it and skip the whole run.  The
first argument is structural fuel (always at least the input length
when called through `jsSplitWs`), keeping the definition reducible. -/
def splitWsCore : ℕ → List Char → List Char → List (List Char)
  | 0, _, buf => [buf.reverse]
  | _ + 1, [], buf => [buf.reverse]
  | n + 1, c :: rest, buf =>
    if isWs c then
      buf.reverse :: splitWsCore n (rest.dropWhile isWs) []
    else
      splitWsCore n rest (c :: buf)

/-- Exhausted input emits the pending buffer whatever the fuel. -/
theorem splitWsCore_nil (n : ℕ) (buf : List Char) :
    splitWsCore n [] buf = [buf.reverse] := by
  cases n <;> rfl

/-- JavaScript `text.split(/\s+/)` on a character list. -/
def jsSplitWs (s : List Char) : List (List Char) :=
  splitWsCore s.length s []

/-- Non-whitespace character test. -/
def notWs (c : Char) : Bool := !isWs c

/-- Fueled word extraction: the non-whitespace maximal runs. -/
def wordsOfF : ℕ → List Char → List (List Char)
  | 0, _ => []
  | _ + 1, [] => []
  | n + 1, c :: rest =>
    if isWs c then
      wordsOfF n rest
    else
      (c :: rest.takeWhile notWs) :: wordsOfF n (rest.dropWhile notWs)

/-- The non-whitespace maximal runs of a string, i.e. its word sequence
obtained by splitting on runs of whitespace and discarding the empty
boundary tokens. -/
def wordsOf (s : List Char) : List (List Char) :=
  wordsOfF s.length s

/-- Fuel irrelevance for `wordsOfF` above the input length. -/
theorem wordsOfF_congr :
    ∀ (n m : ℕ) (s : List Char), s.length ≤ n → s.length ≤ m →
      wordsOfF n s = wordsOfF m s := by
  intro n
  induction n with
  | zero =>
    intro m s hn _
    have : s = [] := List.length_eq_zero.mp (Nat.le_zero.mp hn)
    subst this
    cases m <;> rfl
  | succ n ih =>
    intro m s hn hm
    cases s with
    | nil => cases m <;> rfl
    | cons c rest =>
      cases m with
      | zero => simp at hm
      | succ m =>
        have hn' : rest.length ≤ n := by simpa using hn
        have hm' : rest.length ≤ m := by simpa using hm
        show (if isWs c then wordsOfF n rest
            else (c :: rest.takeWhile notWs) :: wordsOfF n (rest.dropWhile notWs)) =
          (if isWs c then wordsOfF m rest
            else (c :: rest.takeWhile notWs) :: wordsOfF m (rest.dropWhile notWs))
        by_cases hc : isWs c
        · rw [if_pos hc, if_pos hc, ih m rest hn' hm']
        · rw [if_neg hc, if_neg hc,
            ih m (rest.dropWhile notWs)
              (Nat.le_trans (dropWhile_len_le notWs rest) hn')
              (Nat.le_trans (dropWhile_len_le notWs rest) hm')]

/-- Zero fuel yields no words. -/
@[simp] theorem wordsOfF_zero (s : List Char) : wordsOfF 0 s = [] := rfl

/-- `wordsOf` on the empty string. -/
@[simp] theorem wordsOf_nil : wordsOf [] = [] := rfl

/-- One-step unfolding of `wordsOf`. -/
theorem wordsOf_cons (c : Char) (rest : List Char) :
    wordsOf (c :: rest) =
      if isWs c then wordsOf rest
      else (c :: rest.takeWhile notWs) :: wordsOf (rest.dropWhile notWs) := by
  show (if isWs c then wordsOfF rest.length rest
      else (c :: rest.takeWhile notWs) :: wordsOfF rest.length (rest.dropWhile notWs)) = _
  by_cases hc : isWs c
  · rw [if_pos hc, if_pos hc]
    rfl
  · rw [if_neg hc, if_neg hc, wordsOf,
      wordsOfF_congr rest.length (rest.dropWhile notWs).length (rest.dropWhile notWs)
        (dropWhile_len_le notWs rest) (le_refl _)]

/-! ## `wrapLines`

```ts
function wrapLines(text, maxWidth, font, size) {
  const words = text.split(/\s+/);
  const lines = [];
  let buf = "";
  for (const w of words) {
    const test = buf ? buf + " " + w : w;
    if (textWidth(font, test, size) > maxWidth) {
      if (buf) lines.push(buf);
      buf = w;
    } else buf = test;
  }
  if (buf) lines.push(buf);
  return lines;
}
```

The pair of a font handle and a point size only ever enters through
`textWidth`, so it is abstracted into a single width-measuring function
`font : List Char → ℚ`. -/

/-- Loop of `wrapLines` over the token list, carrying the buffer. -/
def wrapGo (font : List Char → ℚ) (maxWidth : ℚ) :
    List (List Char) → List Char → List (List Char)
  | [], buf => if buf = [] then [] else [buf]
  | w :: ws, buf =>
    let test := if buf = [] then w else buf ++ ' ' :: w
    if maxWidth < font test then
      (if buf = [] then [] else [buf]) ++ wrapGo font maxWidth ws w
    else
      wrapGo font maxWidth ws test

/-- `wrapLines(text, maxWidth, font, size)` from the source. -/
def wrapLines (text : List Char) (maxWidth : ℚ) (font : List Char → ℚ) :
    List (List Char) :=
  wrapGo font maxWidth (jsSplitWs text) []

/-- Joining a line list with single spaces, as in re-concatenating the
wrapped lines. -/
def joinSp : List (List Char) → List Char
  | [] => []
  | [l] => l
  | l :: ls => l ++ ' ' :: joinSp ls

/-! ## Tokenisation lemmas -/

/-- Membership survives `dropWhile`. -/
theorem mem_of_mem_dropWhile {α : Type} (p : α → Bool) :
    ∀ (l : List α) (x : α), x ∈ l.dropWhile p → x ∈ l := by
  intro l
  induction l with
  | nil => intro x h; simp [List.dropWhile] at h
  | cons c rest ih =>
    intro x h
    by_cases hc : p c
    · simp only [List.dropWhile, hc] at h
      exact List.mem_cons_of_mem c (ih x h)
    · simpa [List.dropWhile, hc] using h

/-- `takeWhile`/`dropWhile` over an append whose left part fully
satisfies the predicate. -/
theorem takeWhile_append_all {α : Type} (p : α → Bool) :
    ∀ (a b : List α), (∀ x ∈ a, p x = true) →
      (a ++ b).takeWhile p = a ++ b.takeWhile p ∧
        (a ++ b).dropWhile p = b.dropWhile p := by
  intro a
  induction a with
  | nil => intro b _; simp
  | cons c a' ih =>
    intro b h
    have hc : p c = true := h c (by simp)
    have h' : ∀ x ∈ a', p x = true := fun x hx => h x (List.mem_cons_of_mem c hx)
    have := ih b h'
    constructor
    · simp [List.takeWhile, hc, this.1]
    · simp [List.dropWhile, hc, this.2]

/-- `takeWhile`/`dropWhile` over an append whose left part contains a
predicate failure. -/
theorem takeWhile_append_break {α : Type} (p : α → Bool) :
    ∀ (a b : List α), (∃ x ∈ a, p x = false) →
      (a ++ b).takeWhile p = a.takeWhile p ∧
        (a ++ b).dropWhile p = a.dropWhile p ++ b := by
  intro a
  induction a with
  | nil => intro b h; simp at h
  | cons c a' ih =>
    intro b h
    by_cases hc : p c
    · have h' : ∃ x ∈ a', p x = false := by
        rcases h with ⟨x, hx, hpx⟩
        rcases List.mem_cons.mp hx with rfl | hx'
        · rw [hc] at hpx; cases hpx
        · exact ⟨x, hx', hpx⟩
      have := ih b h'
      constructor
      · simp [List.takeWhile, hc, this.1]
      · simp [List.dropWhile, hc, this.2]
    · constructor
      · simp [List.takeWhile, hc]
      · simp [List.dropWhile, hc]

/-- On a list that fully satisfies the predicate, `takeWhile` is the
identity and `dropWhile` empties it. -/
theorem takeWhile_all {α : Type} (p : α → Bool) (a : List α)
    (h : ∀ x ∈ a, p x = true) :
    a.takeWhile p = a ∧ a.dropWhile p = [] := by
  have := takeWhile_append_all p a [] h
  simpa using this

/-- One-step unfolding of `wordsOf` through its leading run. -/
theorem wordsOf_eta (r : List Char) :
    wordsOf r =
      (if r.takeWhile notWs = [] then [] else [r.takeWhile notWs]) ++
        wordsOf (r.dropWhile notWs) := by
  cases r with
  | nil => simp [wordsOf_nil]
  | cons c r' =>
    rw [wordsOf_cons]
    by_cases hc : isWs c
    · have hn : notWs c = false := by simp [notWs, hc]
      rw [if_pos hc, List.takeWhile_cons_of_neg (by simp [hn]),
        List.dropWhile_cons_of_neg (by simp [hn])]
      rw [wordsOf_cons, if_pos hc]
      simp
    · have hn : notWs c = true := by simp [notWs, hc]
      rw [if_neg hc, List.takeWhile_cons_of_pos (by simp [hn]),
        List.dropWhile_cons_of_pos (by simp [hn])]
      simp

/-- `wordsOf` ignores a leading whitespace run. -/
theorem wordsOf_dropWs : ∀ s : List Char, wordsOf (s.dropWhile isWs) = wordsOf s := by
  intro s
  induction s with
  | nil => simp
  | cons c rest ih =>
    by_cases hc : isWs c
    · rw [List.dropWhile_cons_of_pos (by simp [hc]), ih, wordsOf_cons, if_pos hc]
    · rw [List.dropWhile_cons_of_neg (by simp [hc])]

/-- Filtering the empty boundary tokens out of `splitWsCore` yields the
word runs, with the pending buffer folded into the first word, whenever
the fuel covers the input. -/
theorem splitWsCore_filter_aux :
    ∀ (n : ℕ) (s buf : List Char), s.length ≤ n →
      (splitWsCore n s buf).filter (fun t => !t.isEmpty) =
        (if buf.reverse ++ s.takeWhile notWs = []
          then []
          else [buf.reverse ++ s.takeWhile notWs]) ++
          wordsOf (s.dropWhile notWs) := by
  intro n
  induction n with
  | zero =>
    intro s buf hs
    have : s = [] := List.length_eq_zero.mp (Nat.le_zero.mp hs)
    subst this
    by_cases hb : buf.reverse = []
    · simp [splitWsCore, List.filter_cons, wordsOf_nil, hb]
    · have hbe : buf.reverse.isEmpty = false := by
        cases h : buf.reverse with
        | nil => exact absurd h hb
        | cons x xs => simp
      simp [splitWsCore, List.filter_cons, wordsOf_nil, hb, hbe]
  | succ n ih =>
    intro s buf hs
    cases s with
    | nil =>
      by_cases hb : buf.reverse = []
      · simp [splitWsCore, List.filter_cons, wordsOf_nil, hb]
      · have hbe : buf.reverse.isEmpty = false := by
          cases h : buf.reverse with
          | nil => exact absurd h hb
          | cons x xs => simp
        simp [splitWsCore, List.filter_cons, wordsOf_nil, hb, hbe]
    | cons c rest =>
      by_cases hc : isWs c
      · have hn : notWs c = false := by simp [notWs, hc]
        have hlen : (rest.dropWhile isWs).length ≤ n := by
          have h1 := dropWhile_len_le isWs rest
          have h2 : rest.length ≤ n := (by simpa using hs)
          exact Nat.le_trans h1 h2
        have hrec := ih (rest.dropWhile isWs) [] hlen
        rw [splitWsCore]
        rw [if_pos hc]
        simp only [List.filter]
        rw [List.takeWhile_cons_of_neg (by simp [hn]),
          List.dropWhile_cons_of_neg (by simp [hn])]
        simp only [List.append_nil]
        by_cases hb : buf.reverse = []
        · rw [hb]
          simp only [List.isEmpty_nil, Bool.not_true, if_pos rfl, List.nil_append]
          rw [hrec]
          simp only [List.reverse_nil, List.nil_append]
          rw [wordsOf_cons, if_pos hc, ← wordsOf_dropWs rest,
            wordsOf_eta (rest.dropWhile isWs)]
          simp
        · have : buf.reverse.isEmpty = false := by
            cases h : buf.reverse with
            | nil => exact absurd h hb
            | cons x xs => simp
          rw [this]
          simp only [Bool.not_false, if_neg hb]
          rw [hrec]
          simp only [List.reverse_nil, List.nil_append]
          rw [wordsOf_cons, if_pos hc, ← wordsOf_dropWs rest,
            wordsOf_eta (rest.dropWhile isWs)]
          simp
      · have hn : notWs c = true := by simp [notWs, hc]
        have hlen : rest.length ≤ n := (by simpa using hs)
        have hrec := ih rest (c :: buf) hlen
        rw [splitWsCore, if_neg hc, hrec]
        rw [List.takeWhile_cons_of_pos (by simp [hn]),
          List.dropWhile_cons_of_pos (by simp [hn])]
        have hrev : (c :: buf).reverse = buf.reverse ++ [c] := by simp
        rw [hrev]
        have hne : buf.reverse ++ [c] ++ rest.takeWhile notWs ≠ [] := by
          simp
        have hne' : buf.reverse ++ c :: rest.takeWhile notWs ≠ [] := by
          simp
        rw [if_neg hne, if_neg hne']
        simp

/-- Every token produced by the splitter is whitespace-free. -/
theorem splitWsCore_nonWs :
    ∀ (n : ℕ) (s buf : List Char), s.length ≤ n →
      (∀ c ∈ buf, isWs c = false) →
      ∀ t ∈ splitWsCore n s buf, ∀ c ∈ t, isWs c = false := by
  intro n
  induction n with
  | zero =>
    intro s buf hs hbuf t ht c hc
    have : s = [] := List.length_eq_zero.mp (Nat.le_zero.mp hs)
    subst this
    simp only [splitWsCore, List.mem_singleton] at ht
    subst ht
    exact hbuf c (by simpa using hc)
  | succ n ih =>
    intro s buf hs hbuf t ht c hc
    cases s with
    | nil =>
      simp only [splitWsCore, List.mem_singleton] at ht
      subst ht
      exact hbuf c (by simpa using hc)
    | cons d rest =>
      by_cases hd : isWs d
      · rw [splitWsCore, if_pos hd] at ht
        rcases List.mem_cons.mp ht with rfl | ht'
        · exact hbuf c (by simpa using hc)
        · have hlen : (rest.dropWhile isWs).length ≤ n := by
            have h1 := dropWhile_len_le isWs rest
            have h2 : rest.length ≤ n := (by simpa using hs)
            exact Nat.le_trans h1 h2
          exact ih (rest.dropWhile isWs) [] hlen (by simp) t ht' c hc
      · rw [splitWsCore, if_neg hd] at ht
        have hlen : rest.length ≤ n := (by simpa using hs)
        have hbuf' : ∀ x ∈ d :: buf, isWs x = false := by
          intro x hx
          rcases List.mem_cons.mp hx with rfl | hx'
          · exact Bool.eq_false_iff.mpr hd
          · exact hbuf x hx'
        exact ih rest (d :: buf) hlen hbuf' t ht c hc

/-- Dropping the empty boundary tokens of `text.split(/\s+/)` leaves the
word sequence of the text. -/
theorem jsSplitWs_filter (s : List Char) :
    (jsSplitWs s).filter (fun t => !t.isEmpty) = wordsOf s := by
  have := splitWsCore_filter_aux s.length s [] (le_refl _)
  rw [jsSplitWs, this]
  simp only [List.reverse_nil, List.nil_append]
  rw [← wordsOf_eta]

/-- Tokens of `text.split(/\s+/)` contain no whitespace characters. -/
theorem jsSplitWs_nonWs (s : List Char) :
    ∀ t ∈ jsSplitWs s, ∀ c ∈ t, isWs c = false :=
  splitWsCore_nonWs s.length s [] (le_refl _) (by simp)

/-- A non-empty token of the splitter is a word of the input. -/
theorem mem_wordsOf_of_token {s t : List Char} (ht : t ∈ jsSplitWs s)
    (hne : t ≠ []) : t ∈ wordsOf s := by
  rw [← jsSplitWs_filter]
  refine List.mem_filter.mpr ⟨ht, ?_⟩
  cases h : t with
  | nil => exact absurd h hne
  | cons x xs => simp

/-- Words of a string split at an inserted space: the space is a run
boundary, so the word sequences concatenate. -/
theorem wordsOf_append_sep :
    ∀ (n : ℕ) (a b : List Char), a.length ≤ n →
      wordsOf (a ++ ' ' :: b) = wordsOf a ++ wordsOf b := by
  intro n
  induction n with
  | zero =>
    intro a b ha
    have ha0 : a = [] := List.length_eq_zero.mp (Nat.le_zero.mp ha)
    subst ha0
    have hw : isWs ' ' = true := by decide
    rw [List.nil_append, wordsOf_cons, if_pos hw, wordsOf_nil, List.nil_append]
  | succ n ih =>
    intro a b ha
    cases a with
    | nil =>
      have hw : isWs ' ' = true := by decide
      rw [List.nil_append, wordsOf_cons, if_pos hw, wordsOf_nil, List.nil_append]
    | cons c a' =>
      have ha' : a'.length ≤ n := by simpa using ha
      by_cases hc : isWs c
      · rw [List.cons_append, wordsOf_cons, if_pos hc, wordsOf_cons, if_pos hc]
        exact ih a' b ha'
      · rw [List.cons_append, wordsOf_cons, if_neg hc, wordsOf_cons, if_neg hc]
        by_cases hall : ∀ x ∈ a', notWs x = true
        · have h1 := takeWhile_append_all notWs a' (' ' :: b) hall
          have h2 := takeWhile_all notWs a' hall
          have hsp : notWs ' ' = false := by decide
          rw [h1.1, h1.2, h2.1, h2.2]
          rw [List.takeWhile_cons_of_neg (by simp [hsp]),
            List.dropWhile_cons_of_neg (by simp [hsp]), List.append_nil]
          rw [wordsOf_cons, if_pos (by decide : isWs ' ' = true), wordsOf_nil]
          simp
        · have hex : ∃ x ∈ a', notWs x = false := by
            push_neg at hall
            rcases hall with ⟨x, hx, hnx⟩
            exact ⟨x, hx, Bool.eq_false_iff.mpr hnx⟩
          have h1 := takeWhile_append_break notWs a' (' ' :: b) hex
          rw [h1.1, h1.2]
          have hlen : (a'.dropWhile notWs).length ≤ n :=
            Nat.le_trans (dropWhile_len_le notWs a') ha'
          rw [ih (a'.dropWhile notWs) b hlen]
          simp

/-- A whitespace-free non-empty string is a single word. -/
theorem wordsOf_all_notWs (s : List Char) (h : ∀ c ∈ s, isWs c = false) :
    wordsOf s = if s = [] then [] else [s] := by
  cases s with
  | nil => simp [wordsOf]
  | cons c rest =>
    have hc : isWs c = false := h c (by simp)
    have hall : ∀ x ∈ rest, notWs x = true := by
      intro x hx
      simp [notWs, h x (List.mem_cons_of_mem c hx)]
    have h2 := takeWhile_all notWs rest hall
    rw [wordsOf_cons, if_neg (by simp [hc]), h2.1, h2.2]
    simp

/-- The wrapping loop preserves the word sequence: the words of the
produced lines are the pending buffer's words followed by the words of
the remaining tokens. -/
theorem wrapGo_words (font : List Char → ℚ) (maxWidth : ℚ) :
    ∀ (ws : List (List Char)) (buf : List Char),
      ((wrapGo font maxWidth ws buf).map wordsOf).flatten =
        wordsOf buf ++ (ws.map wordsOf).flatten := by
  intro ws
  induction ws with
  | nil =>
    intro buf
    by_cases hb : buf = []
    · subst hb; simp [wrapGo, wordsOf]
    · simp [wrapGo, hb]
  | cons w ws ih =>
    intro buf
    have htest : wordsOf (if buf = [] then w else buf ++ ' ' :: w) =
        wordsOf buf ++ wordsOf w := by
      by_cases hb : buf = []
      · subst hb; simp [wordsOf]
      · rw [if_neg hb]
        exact wordsOf_append_sep buf.length buf w (le_refl _)
    rw [wrapGo]
    by_cases hwide : maxWidth < font (if buf = [] then w else buf ++ ' ' :: w)
    · rw [if_pos hwide]
      rw [List.map_append, List.flatten_append, ih w]
      by_cases hb : buf = []
      · subst hb; simp [wordsOf]
      · simp [hb]
    · rw [if_neg hwide, ih _, htest]
      simp

/-- `joinSp` on a list of two or more lines. -/
theorem joinSp_cons (l l2 : List Char) (ls : List (List Char)) :
    joinSp (l :: l2 :: ls) = l ++ ' ' :: joinSp (l2 :: ls) := rfl

/-- Words of the space-joined line list are the concatenated per-line
words. -/
theorem joinSp_words : ∀ lines : List (List Char),
    wordsOf (joinSp lines) = (lines.map wordsOf).flatten := by
  intro lines
  induction lines with
  | nil => simp [joinSp, wordsOf]
  | cons l ls ih =>
    cases ls with
    | nil => simp [joinSp]
    | cons l2 ls' =>
      rw [joinSp_cons, wordsOf_append_sep l.length l _ (le_refl _), ih]
      simp

/-- Whitespace-free token lists: concatenated words are exactly the
non-empty tokens. -/
theorem words_flatten_filter :
    ∀ ts : List (List Char), (∀ t ∈ ts, ∀ c ∈ t, isWs c = false) →
      (ts.map wordsOf).flatten = ts.filter (fun t => !t.isEmpty) := by
  intro ts
  induction ts with
  | nil => intro _; simp
  | cons t ts ih =>
    intro h
    have ht : ∀ c ∈ t, isWs c = false := h t (by simp)
    have hts : ∀ u ∈ ts, ∀ c ∈ u, isWs c = false :=
      fun u hu => h u (List.mem_cons_of_mem t hu)
    rw [List.map_cons, List.flatten_cons, ih hts, wordsOf_all_notWs t ht]
    cases t with
    | nil => simp [List.filter_cons]
    | cons x xs => simp [List.filter_cons]

/-- The concatenated words of the split tokens are the words of the
text itself. -/
theorem jsSplitWs_words (s : List Char) :
    ((jsSplitWs s).map wordsOf).flatten = wordsOf s := by
  rw [words_flatten_filter _ (jsSplitWs_nonWs s), jsSplitWs_filter]

/-- C4, main theorem: re-joining the wrapped lines with single spaces
preserves the word sequence of the input text exactly. -/
theorem wrapLines_words (text : List Char) (maxWidth : ℚ)
    (font : List Char → ℚ) :
    wordsOf (joinSp (wrapLines text maxWidth font)) = wordsOf text := by
  rw [joinSp_words, wrapLines, wrapGo_words, jsSplitWs_words]
  simp [wordsOf]

/-- Invariant of the wrapping loop: every emitted line either fits in
`maxWidth` or satisfies the buffer predicate `P` (instantiated below
with being a single word of the input). -/
theorem wrapGo_mem_bound (font : List Char → ℚ) (maxWidth : ℚ)
    (P : List Char → Prop) :
    ∀ (ws : List (List Char)) (buf : List Char),
      (buf = [] ∨ font buf ≤ maxWidth ∨ P buf) →
      (∀ w ∈ ws, w = [] ∨ P w) →
      ∀ l ∈ wrapGo font maxWidth ws buf, font l ≤ maxWidth ∨ P l := by
  intro ws
  induction ws with
  | nil =>
    intro buf hbuf _ l hl
    by_cases hb : buf = []
    · rw [wrapGo, if_pos hb] at hl
      simp at hl
    · rw [wrapGo, if_neg hb] at hl
      rcases List.mem_singleton.mp hl with rfl
      rcases hbuf with h | h | h
      · exact absurd h hb
      · exact Or.inl h
      · exact Or.inr h
  | cons w ws ih =>
    intro buf hbuf hws l hl
    have hw : w = [] ∨ P w := hws w (by simp)
    have hws' : ∀ u ∈ ws, u = [] ∨ P u :=
      fun u hu => hws u (List.mem_cons_of_mem w hu)
    rw [wrapGo] at hl
    by_cases hwide : maxWidth < font (if buf = [] then w else buf ++ ' ' :: w)
    · rw [if_pos hwide] at hl
      rcases List.mem_append.mp hl with hl1 | hl2
      · by_cases hb : buf = []
        · rw [if_pos hb] at hl1; simp at hl1
        · rw [if_neg hb] at hl1
          rcases List.mem_singleton.mp hl1 with rfl
          rcases hbuf with h | h | h
          · exact absurd h hb
          · exact Or.inl h
          · exact Or.inr h
      · exact ih w (by rcases hw with h | h; exact Or.inl h; exact Or.inr (Or.inr h))
          hws' l hl2
    · rw [if_neg hwide] at hl
      exact ih _ (Or.inr (Or.inl (le_of_not_lt hwide))) hws' l hl

/-- C3: every line that `wrapLines` returns either fits within
`maxWidth` under the measuring function, or is verbatim a single word
of the input text (hence alone on its line and never split); a word
kept whole can only overflow when it alone exceeds `maxWidth`. -/
theorem wrapLines_width_bound (text : List Char) (maxWidth : ℚ)
    (font : List Char → ℚ) (l : List Char)
    (hl : l ∈ wrapLines text maxWidth font) :
    font l ≤ maxWidth ∨ l ∈ wordsOf text := by
  refine wrapGo_mem_bound font maxWidth (fun u => u ∈ wordsOf text)
    (jsSplitWs text) [] (Or.inl rfl) ?_ l hl
  intro w hw
  by_cases hne : w = []
  · exact Or.inl hne
  · exact Or.inr (mem_wordsOf_of_token hw hne)

/-- Witness for C3 at a concrete text, width budget, and measure. -/
theorem wrapLines_width_bound_witness :
    (fun u : List Char => (u.length : ℚ)) "hello".data ≤ 5 ∨
      "hello".data ∈ wordsOf "hello world".data :=
  wrapLines_width_bound "hello world".data 5 (fun u => (u.length : ℚ))
    "hello".data (by decide)

/-- C4: concatenating the returned lines with single spaces
reconstructs exactly the input's token sequence (its words, obtained by
splitting on whitespace runs): words are never split and whitespace
runs collapse to single separators. -/
theorem wrapLines_reconstruction (text : List Char) (maxWidth : ℚ)
    (font : List Char → ℚ) :
    wordsOf (joinSp (wrapLines text maxWidth font)) = wordsOf text :=
  wrapLines_words text maxWidth font

/-- Every line the wrapping loop pushes is non-empty. -/
theorem wrapGo_ne_nil (font : List Char → ℚ) (maxWidth : ℚ) :
    ∀ (ws : List (List Char)) (buf l : List Char),
      l ∈ wrapGo font maxWidth ws buf → l ≠ [] := by
  intro ws
  induction ws with
  | nil =>
    intro buf l hl
    by_cases hb : buf = []
    · rw [wrapGo, if_pos hb] at hl; simp at hl
    · rw [wrapGo, if_neg hb] at hl
      rcases List.mem_singleton.mp hl with rfl
      exact hb
  | cons w ws ih =>
    intro buf l hl
    rw [wrapGo] at hl
    by_cases hwide : maxWidth < font (if buf = [] then w else buf ++ ' ' :: w)
    · rw [if_pos hwide] at hl
      rcases List.mem_append.mp hl with hl1 | hl2
      · by_cases hb : buf = []
        · rw [if_pos hb] at hl1; simp at hl1
        · rw [if_neg hb] at hl1
          rcases List.mem_singleton.mp hl1 with rfl
          exact hb
      · exact ih w l hl2
    · rw [if_neg hwide] at hl
      exact ih _ l hl

/-- On a token list of only empty tokens the loop emits nothing. -/
theorem wrapGo_all_nil (font : List Char → ℚ) (maxWidth : ℚ) :
    ∀ ws : List (List Char), (∀ w ∈ ws, w = []) →
      wrapGo font maxWidth ws [] = [] := by
  intro ws
  induction ws with
  | nil => intro _; simp [wrapGo]
  | cons w ws ih =>
    intro h
    have hw : w = [] := h w (by simp)
    have hws : ∀ u ∈ ws, u = [] := fun u hu => h u (List.mem_cons_of_mem w hu)
    subst hw
    rw [wrapGo]
    by_cases hwide : maxWidth < font (if ([] : List Char) = [] then [] else [] ++ ' ' :: [])
    · rw [if_pos hwide]
      simp [ih hws]
    · rw [if_neg hwide]
      simpa using ih hws

/-- On an all-whitespace string the splitter only produces empty
boundary tokens. -/
theorem jsSplitWs_all_nil (s : List Char) (h : ∀ c ∈ s, isWs c = true) :
    ∀ t ∈ jsSplitWs s, t = [] := by
  cases s with
  | nil =>
    intro t ht
    simpa [jsSplitWs, splitWsCore] using ht
  | cons c rest =>
    intro t ht
    have hc : isWs c = true := h c (by simp)
    have hall : ∀ x ∈ rest, isWs x = true :=
      fun x hx => h x (List.mem_cons_of_mem c hx)
    have hdrop : rest.dropWhile isWs = [] := (takeWhile_all isWs rest hall).2
    rw [jsSplitWs] at ht
    simp only [List.length_cons] at ht
    rw [splitWsCore, if_pos hc, hdrop, splitWsCore_nil] at ht
    rcases List.mem_cons.mp ht with rfl | ht'
    · rfl
    · simpa using ht'

/-- C10: `wrapLines` never returns an empty line, and on an input made
only of whitespace characters it returns the empty list. -/
theorem wrapLines_lines_nonempty :
    (∀ (text : List Char) (maxWidth : ℚ) (font : List Char → ℚ)
        (l : List Char), l ∈ wrapLines text maxWidth font → l ≠ []) ∧
      (∀ (text : List Char) (maxWidth : ℚ) (font : List Char → ℚ),
        (∀ c ∈ text, isWs c = true) → wrapLines text maxWidth font = []) := by
  constructor
  · intro text maxWidth font l hl
    exact wrapGo_ne_nil font maxWidth (jsSplitWs text) [] l hl
  · intro text maxWidth font h
    exact wrapGo_all_nil font maxWidth (jsSplitWs text) (jsSplitWs_all_nil text h)

/-- Witness for C10 on a concrete all-whitespace input. -/
theorem wrapLines_lines_nonempty_witness :
    wrapLines "  ".data 10 (fun u => (u.length : ℚ)) = [] :=
  wrapLines_lines_nonempty.2 "  ".data 10 (fun u => (u.length : ℚ)) (by decide)

/-! ## Data model (`proposta-solar-pdf.ts` type declarations)

JavaScript numbers are modelled as rationals.  Optional fields are
`Option`s.  Raw image byte buffers are lists of bytes. -/

/-- `EquipItem`: one line item of the items table. -/
structure EquipItem where
  descricao : String
  qtd : ℚ
  precoUnit : ℚ
deriving Repr, DecidableEq

/-- `Kpis`: the key performance indicators of the proposal. -/
structure Kpis where
  potenciaKWp : ℚ
  energiaMensalKWh : ℚ
  economiaAnualBRL : ℚ
  paybackAnos : ℚ
  tirPercent : Option ℚ
deriving Repr, DecidableEq

/-- `Finance`: the financial parameters. -/
structure Finance where
  capexBRL : ℚ
  tarifaBRLkWh : ℚ
  degradacaoAnual : Option ℚ
deriving Repr, DecidableEq

/-- `Company`: issuing company data. -/
structure Company where
  nome : String
  cnpj : Option String
  endereco : Option String
  contato : Option String
deriving Repr, DecidableEq

/-- `Client`: client data. -/
structure Client where
  nome : String
  documento : Option String
  endereco : Option String
deriving Repr, DecidableEq

/-- `SolarProposalData`: the full proposal record. -/
structure SolarProposalData where
  titulo : String
  dataISO : String
  company : Company
  client : Client
  kpis : Kpis
  finance : Finance
  itens : List EquipItem
  observacoes : Option (List String)
  premissasTecnicas : Option (List String)
deriving Repr, DecidableEq

/-- A decoded image, with its pixel dimensions. -/
structure EmbeddedImage where
  width : ℚ
  height : ℚ
deriving Repr, DecidableEq

/-- `Charts`: optional chart image byte buffers. -/
structure Charts where
  paybackChart : Option (List ℕ)
  geracaoAnualChart : Option (List ℕ)
deriving Repr, DecidableEq

/-- `Assets`: optional logo and charts byte buffers. -/
structure Assets where
  logo : Option (List ℕ)
  charts : Option Charts
deriving Repr, DecidableEq

/-- The external collaborators of the layout engine: pdf-lib font
metrics (`widthOfTextAtSize`, with a flag for the bold face), the
locale formatting functions (`toLocaleString` currency, `toFixed`,
`toLocaleDateString`, number-to-string coercion), and the two image
codecs.  A codec returning `none` models a decode failure (a thrown
exception in `embedPng`/`embedJpg`). -/
structure Env where
  widthOfTextAtSize : Bool → String → ℚ → ℚ
  fmtBRL : ℚ → String
  toFixed : ℚ → ℕ → String
  localeDate : String → String
  numToString : ℚ → String
  embedPng : List ℕ → Option EmbeddedImage
  embedJpg : List ℕ → Option EmbeddedImage

/-- One primitive drawing operation on a page surface (colours are not
modelled; positions, sizes, line thickness and the chosen face are). -/
inductive Op where
  | text (s : String) (x y size : ℚ) (bold : Bool)
  | line (x1 y1 x2 y2 thickness : ℚ)
  | rect (x y w h : ℚ)
  | circle (x y r : ℚ)
  | image (x y w h : ℚ)
deriving Repr, DecidableEq

/-- One page surface: its drawing operations in issue order. -/
abbrev Page := List Op

/-- The pages under construction, most recent first (the page every
drawing call currently targets is the head). -/
abbrev DocState := List Page

/-- Append ops to the current (most recently added) page. -/
def addOps (st : DocState) (ops : List Op) : DocState :=
  match st with
  | [] => [ops]
  | p :: ps => (p ++ ops) :: ps

/-- A4 page width, `595.28`. -/
def A4w : ℚ := 59528 / 100

/-- A4 page height, `841.89`. -/
def A4h : ℚ := 84189 / 100

/-- The page margin `M = 40`. -/
def M : ℚ := 40

/-- `embedImageFlexible`: try PNG, fall back to JPG, and propagate the
JPG failure (the `catch` only covers the PNG attempt). -/
def embedImageFlexible (env : Env) (bytes : Option (List ℕ)) :
    Except Unit (Option EmbeddedImage) :=
  match bytes with
  | none => Except.ok none
  | some b =>
    match env.embedPng b with
    | some img => Except.ok (some img)
    | none =>
      match env.embedJpg b with
      | some img => Except.ok (some img)
      | none => Except.error ()

/-- The fixed column layout `COLS` (description 300, quantity 60,
unit price 90, total 90). -/
def colW : List ℚ := [300, 60, 90, 90]

/-- `drawTableHeader` at position (x, y): the four bold column titles
and the rule 4 units below. -/
def drawTableHeader (x y : ℚ) : List Op :=
  [Op.text "Descrição" (x + 2) y 10 true,
   Op.text "Qtde" (x + 300 + 2) y 10 true,
   Op.text "Preço" (x + 300 + 60 + 2) y 10 true,
   Op.text "Total" (x + 300 + 60 + 90 + 2) y 10 true,
   Op.line x (y - 4) (x + 540) (y - 4) (6 / 10)]

/-- `ensureSpace`: if fewer than `needed` units remain above the
`M + 80` floor, add a fresh page, redraw the table header `14` units
below the top margin, and restart the cursor below it. -/
def ensureSpace (st : DocState) (cursorY needed : ℚ) : DocState × ℚ :=
  if cursorY - needed < M + 80 then
    (drawTableHeader M (A4h - M - 14) :: st, A4h - M - 14 - 10)
  else
    (st, cursorY)

/-- One iteration of the row loop of `drawItemsTable`: accumulate the
line total, ensure two row heights of space, draw the four cells
(description truncated past 90 characters, the numeric cells
right-aligned), advance the cursor one row height and draw the
separator rule. -/
def rowStep (env : Env) (acc : DocState × ℚ × ℚ) (it : EquipItem) :
    DocState × ℚ × ℚ :=
  let st := acc.1
  let cursorY0 := acc.2.1
  let total := it.qtd * it.precoUnit
  let subtotal := acc.2.2 + total
  let es := ensureSpace st cursorY0 (20 * 2)
  let st1 := es.1
  let cursorY := es.2
  let desc := if it.descricao.length > 90
    then it.descricao.take 87 ++ "..."
    else it.descricao
  let qtdS := env.numToString it.qtd
  let precoS := env.fmtBRL it.precoUnit
  let totalS := env.fmtBRL total
  let rowOps : List Op :=
    [Op.text desc (M + 2) cursorY 10 false,
     Op.text qtdS (M + 300 + 60 - env.widthOfTextAtSize false qtdS 10 - 2)
       cursorY 10 false,
     Op.text precoS
       (M + 300 + 60 + 90 - env.widthOfTextAtSize false precoS 10 - 2)
       cursorY 10 false,
     Op.text totalS
       (M + 300 + 60 + 90 + 90 - env.widthOfTextAtSize false totalS 10 - 2)
       cursorY 10 false,
     Op.line M (cursorY - 20 + 4) (A4w - M) (cursorY - 20 + 4) (3 / 10)]
  (addOps st1 rowOps, cursorY - 20, subtotal)

/-- The totals block ops at cursor `cy`: the `Subtotal` line, the rule,
and the bold `TOTAL` line — both value cells print `fmtBRL subtotal`. -/
def totalsOps (env : Env) (subtotal cy : ℚ) : List Op :=
  [Op.text "Subtotal" (A4w - M - 220) cy 10 false,
   Op.text (env.fmtBRL subtotal)
     (A4w - M - env.widthOfTextAtSize false (env.fmtBRL subtotal) 10) cy 10 false,
   Op.line (A4w - M - 220) (cy - 18 + 6) (A4w - M) (cy - 18 + 6) (8 / 10),
   Op.text "TOTAL" (A4w - M - 220) (cy - 18) 10 true,
   Op.text (env.fmtBRL subtotal)
     (A4w - M - env.widthOfTextAtSize true (env.fmtBRL subtotal) 10)
     (cy - 18) 10 true]

/-- The totals phase of `drawItemsTable`: ensure a 90-unit budget and
emit the totals block, returning the cursor two 18-unit lines lower. -/
def drawTotals (env : Env) (st : DocState) (cy subtotal : ℚ) :
    DocState × ℚ :=
  let es := ensureSpace st cy 90
  (addOps es.1 (totalsOps env subtotal es.2), es.2 - 36)

/-- `drawItemsTable`: title, header, one row per item accumulating the
subtotal, then the totals block.  Returns the updated pages, the
subtotal and the final cursor. -/
def drawItemsTable (env : Env) (st0 : DocState) (itens : List EquipItem) :
    DocState × ℚ × ℚ :=
  let cy0 := A4h - 260
  let st1 := addOps st0 [Op.text "Itens do Sistema" M cy0 12 true]
  let cy1 := cy0 - 20
  let st2 := addOps st1 (drawTableHeader M cy1)
  let cy2 := cy1 - 16
  let r := List.foldl (rowStep env) (st2, cy2, 0) itens
  let t := drawTotals env r.1 r.2.1 r.2.2
  (t.1, r.2.2, t.2)

/-- `drawKpiCard`: the card box, title, bold value, optional unit; the
returned x is the next card position (box width 120 + 12 gutter). -/
def drawKpiCard (x y : ℚ) (title value : String) (unit : Option String) :
    List Op × ℚ :=
  ([Op.rect x (y - 70) 120 70,
    Op.text title (x + 10) (y - 10 - 14) 9 false,
    Op.text value (x + 10) (y - 10 - 32) 16 true] ++
    (match unit with
     | some u => [Op.text u (x + 10) (y - 10 - 48) 9 false]
     | none => []),
   x + 120 + 12)

/-- The ops of the cover page once the logo decode outcome is known:
optional scaled logo, title, three metadata lines, the four KPI cards
at 132-unit pitch, and the divider. -/
def drawCoverOps (env : Env) (data : SolarProposalData)
    (logo : Option EmbeddedImage) : List Op :=
  let y0 := A4h - M
  let lp : List Op × ℚ :=
    match logo with
    | some img =>
      let H := img.height * (140 / img.width)
      ([Op.image M (y0 - H) 140 H], y0 - (H + 12))
    | none => ([], y0)
  let y := lp.2
  let companyLine := data.company.nome ++
    (match data.company.cnpj with | some c => " • CNPJ " ++ c | none => "")
  let clientLine := "Cliente: " ++ data.client.nome ++
    (match data.client.documento with | some d => " • " ++ d | none => "")
  let dateLine := "Data: " ++ env.localeDate data.dataISO
  let ky := A4h - 260 + 40
  let tir := match data.kpis.tirPercent with
    | some t => " • TIR " ++ env.toFixed t 1 ++ "%"
    | none => ""
  let k1 := drawKpiCard M ky "Potência do Sistema"
    (env.toFixed data.kpis.potenciaKWp 2 ++ " kWp") none
  let k2 := drawKpiCard (M + 132) ky "Geração Mensal"
    (env.toFixed data.kpis.energiaMensalKWh 0 ++ " kWh/mês") none
  let k3 := drawKpiCard (M + 132 + 132) ky "Economia Anual"
    (env.fmtBRL data.kpis.economiaAnualBRL) none
  let k4 := drawKpiCard (M + 132 + 132 + 132) ky "Payback Estimado"
    (env.toFixed data.kpis.paybackAnos 1 ++ " anos" ++ tir) none
  lp.1 ++
    [Op.text data.titulo M (y - 24) 22 true,
     Op.text companyLine M (y - 44) 11 false,
     Op.text clientLine M (y - 44 - 18) 11 false,
     Op.text dateLine M (y - 44 - 36) 11 false] ++
    k1.1 ++ k2.1 ++ k3.1 ++ k4.1 ++
    [Op.line M (A4h - 260) (A4w - M) (A4h - 260) 1]

/-- `drawCover`: decode the logo (propagating a double decode failure)
and draw the cover ops. -/
def drawCover (env : Env) (data : SolarProposalData) (assets : Assets) :
    Except Unit (List Op) := do
  let logo ← embedImageFlexible env assets.logo
  pure (drawCoverOps env data logo)

/-- `drawCharts`: decode the two optional chart images, draw each
present one scaled uniformly into its half-width 240-high box with a
caption, then the notes box and its heading. -/
def drawCharts (env : Env) (charts : Option Charts) :
    Except Unit (List Op) := do
  let pay ← embedImageFlexible env (charts.bind (fun c => c.paybackChart))
  let gen ← embedImageFlexible env (charts.bind (fun c => c.geracaoAnualChart))
  let y := A4h - M - 10 - 20
  let W := (A4w - M * 2 - 12) / 2
  let payOps : List Op :=
    match pay with
    | some img =>
      let s := min (W / img.width) (240 / img.height)
      [Op.text "Payback (fluxo de caixa)" M (y - 12) 10 false,
       Op.image M (y - img.height * s - 18) (img.width * s) (img.height * s)]
    | none => []
  let genOps : List Op :=
    match gen with
    | some img =>
      let s := min (W / img.width) (240 / img.height)
      [Op.text "Geração Anual (kWh)" (M + W + 12) (y - 12) 10 false,
       Op.image (M + W + 12) (y - img.height * s - 18) (img.width * s)
         (img.height * s)]
    | none => []
  let boxY := y - 240 - 40
  pure ([Op.text "Gráficos" M (A4h - M - 10) 12 true] ++ payOps ++ genOps ++
    [Op.rect M (boxY - 120) (A4w - 2 * M) 120,
     Op.text "Notas e Premissas" (M + 10) (boxY - 16) 11 true])

/-- One bullet of `drawBullets`: wrap the item, draw the bullet glyph
and the first line, then the continuation lines at 14-unit pitch.  An
item wrapping to no lines at all makes pdf-lib `drawText` throw on the
undefined `lines[0]`, modelled as an error. -/
def drawBulletItem (env : Env) (x y width : ℚ) (it : String) :
    Except Unit (List Op × ℚ) :=
  let lines := wrapLines it.data (width - 16)
    (fun u => env.widthOfTextAtSize false (String.mk u) 10)
  match lines with
  | [] => Except.error ()
  | l0 :: rest =>
    let extras := ((List.range rest.length).zip rest).map
      (fun p => Op.text (String.mk p.2) (x + 12) (y - 24 - 14 * (p.1 : ℚ)) 10 false)
    Except.ok
      (Op.circle (x + 3) (y - 6) 2 ::
        Op.text (String.mk l0) (x + 12) (y - 10) 10 false :: extras,
       y - 24 - 14 * (rest.length : ℚ) - 2)

/-- `drawBullets` over an item list, threading the cursor. -/
def drawBullets (env : Env) (x width : ℚ) :
    List String → ℚ → Except Unit (List Op × ℚ)
  | [], y => Except.ok ([], y)
  | it :: its, y => do
    let r1 ← drawBulletItem env x y width it
    let r2 ← drawBullets env x width its r1.2
    pure (r1.1 ++ r2.1, r2.2)

/-- `drawSectionBullets`: bold section title then the bullets. -/
def drawSectionBullets (env : Env) (title : String) (bullets : List String)
    (startY : ℚ) : Except Unit (List Op × ℚ) := do
  let r ← drawBullets env M (A4w - 2 * M) bullets (startY - 18)
  pure (Op.text title M startY 12 true :: r.1, r.2)

/-- `addFooter`: the thin divider 24 units above the bottom margin, the
company line left-aligned, the page number near the right margin. -/
def addFooter (company : Company) (pageNum : ℕ) : List Op :=
  [Op.line M (M + 24) (A4w - M) (M + 24) (4 / 10),
   Op.text (company.nome ++
     (match company.contato with | some c => " • " ++ c | none => ""))
     M (M + 10) 9 false,
   Op.text (toString pageNum) (A4w - M - 10) (M + 10) 9 false]

/-- The `premissasTecnicas` stage of the builder: when present and
non-empty draw the section (lowering the cursor a further 12 units),
otherwise contribute nothing. -/
def premStep (env : Env) (data : SolarProposalData) (y : ℚ) :
    Except Unit (List Op × ℚ) :=
  match data.premissasTecnicas with
  | some l =>
    if l ≠ [] then
      (drawSectionBullets env "Premissas Técnicas" l y).map
        (fun p => (p.1, p.2 - 12))
    else pure (([] : List Op), y)
  | none => pure (([] : List Op), y)

/-- The `observacoes` stage of the builder. -/
def obsStep (env : Env) (data : SolarProposalData) (y : ℚ) :
    Except Unit (List Op × ℚ) :=
  match data.observacoes with
  | some l =>
    if l ≠ [] then drawSectionBullets env "Observações" l y
    else pure (([] : List Op), y)
  | none => pure (([] : List Op), y)

/-- `buildSolarProposalPDF`: cover page with footer 1, items table
section starting on a fresh page with footer 2 on whichever page the
table ends on, charts page with the optional bullet sections and
footer 3.  Pages are produced most-recent-first internally and
reversed at the end. -/
def buildSolarProposalPDF (env : Env) (data : SolarProposalData)
    (assets : Assets) : Except Unit (List Page) := do
  let coverOps ← drawCover env data assets
  let st : DocState := [coverOps ++ addFooter data.company 1]
  let st : DocState := [] :: st
  let r := drawItemsTable env st data.itens
  let st := addOps r.1 (addFooter data.company 2)
  let chartOps ← drawCharts env assets.charts
  let prem ← premStep env data (A4h - 430)
  let obs ← obsStep env data prem.2
  let chartsPage := chartOps ++ prem.1 ++ obs.1 ++ addFooter data.company 3
  pure ((chartsPage :: st).reverse)

/-! ## Helper lemmas on the document state -/

/-- Ops appended to the current page are on the head page. -/
theorem mem_addOps_head (st : DocState) (ops : List Op) (op : Op)
    (h : op ∈ ops) : op ∈ (addOps st ops).headD [] := by
  cases st with
  | nil => simpa [addOps] using h
  | cons p ps => simp [addOps, h]

/-- `addOps` keeps the page count of a non-empty document. -/
theorem addOps_length (st : DocState) (ops : List Op) (h : st ≠ []) :
    (addOps st ops).length = st.length := by
  cases st with
  | nil => exact absurd rfl h
  | cons p ps => simp [addOps]

/-- The subtotal component of the row loop accumulates the line totals
`qtd * precoUnit`. -/
theorem rowFold_subtotal (env : Env) :
    ∀ (itens : List EquipItem) (st : DocState) (cy s0 : ℚ),
      (List.foldl (rowStep env) (st, cy, s0) itens).2.2 =
        s0 + (itens.map fun it => it.qtd * it.precoUnit).sum := by
  intro itens
  induction itens with
  | nil => intro st cy s0; simp
  | cons it its ih =>
    intro st cy s0
    rw [List.foldl_cons]
    rw [ih]
    simp [rowStep]
    ring

/-- Existing ops survive `addOps`. -/
theorem mem_pages_addOps (st : DocState) (ops : List Op) (op : Op)
    (h : ∃ p ∈ st, op ∈ p) : ∃ p ∈ addOps st ops, op ∈ p := by
  rcases h with ⟨p, hp, hop⟩
  cases st with
  | nil => simp at hp
  | cons q ps =>
    rcases List.mem_cons.mp hp with rfl | hp'
    · exact ⟨p ++ ops, by simp [addOps], List.mem_append_left _ hop⟩
    · exact ⟨p, by simp [addOps, hp'], hop⟩

/-- Existing ops survive `ensureSpace`. -/
theorem mem_pages_ensureSpace (st : DocState) (cy needed : ℚ) (op : Op)
    (h : ∃ p ∈ st, op ∈ p) :
    ∃ p ∈ (ensureSpace st cy needed).1, op ∈ p := by
  rcases h with ⟨p, hp, hop⟩
  rw [ensureSpace]
  by_cases hc : cy - needed < M + 80
  · exact ⟨p, by simp [if_pos hc, List.mem_cons_of_mem, hp], hop⟩
  · exact ⟨p, by simp [if_neg hc, hp], hop⟩

/-- Existing ops survive a row step. -/
theorem mem_pages_rowStep (env : Env) (acc : DocState × ℚ × ℚ)
    (it : EquipItem) (op : Op) (h : ∃ p ∈ acc.1, op ∈ p) :
    ∃ p ∈ (rowStep env acc it).1, op ∈ p := by
  exact mem_pages_addOps _ _ _
    (mem_pages_ensureSpace acc.1 acc.2.1 (20 * 2) op h)

/-- Existing ops survive the whole row loop. -/
theorem mem_pages_rowFold (env : Env) :
    ∀ (itens : List EquipItem) (acc : DocState × ℚ × ℚ) (op : Op),
      (∃ p ∈ acc.1, op ∈ p) →
      ∃ p ∈ (List.foldl (rowStep env) acc itens).1, op ∈ p := by
  intro itens
  induction itens with
  | nil => intro acc op h; simpa using h
  | cons it its ih =>
    intro acc op h
    rw [List.foldl_cons]
    exact ih _ op (mem_pages_rowStep env acc it op h)

/-! ## C1: subtotal and total -/

/-- C1: for every record, the subtotal returned by `drawItemsTable` is
exactly the sum of `qtd * precoUnit` over the items, and the totals
block draws the `Subtotal` value and the bold `TOTAL` value (18 units
below it) as the same string: `fmtBRL` applied to that same sum. -/
theorem drawItemsTable_subtotal_total (env : Env) (st0 : DocState)
    (itens : List EquipItem) :
    (drawItemsTable env st0 itens).2.1 =
      (itens.map fun it => it.qtd * it.precoUnit).sum ∧
    ∃ y1 : ℚ,
      Op.text (env.fmtBRL ((itens.map fun it => it.qtd * it.precoUnit).sum))
        (A4w - M - env.widthOfTextAtSize false
          (env.fmtBRL ((itens.map fun it => it.qtd * it.precoUnit).sum)) 10)
        y1 10 false ∈ (drawItemsTable env st0 itens).1.headD [] ∧
      Op.text (env.fmtBRL ((itens.map fun it => it.qtd * it.precoUnit).sum))
        (A4w - M - env.widthOfTextAtSize true
          (env.fmtBRL ((itens.map fun it => it.qtd * it.precoUnit).sum)) 10)
        (y1 - 18) 10 true ∈ (drawItemsTable env st0 itens).1.headD [] := by
  have hsub : ∀ st cy,
      (List.foldl (rowStep env) (st, cy, 0) itens).2.2 =
        (itens.map fun it => it.qtd * it.precoUnit).sum := by
    intro st cy
    rw [rowFold_subtotal]
    ring
  constructor
  · simp only [drawItemsTable]
    exact hsub _ _
  · simp only [drawItemsTable, drawTotals]
    set acc0 := (addOps (addOps st0 [Op.text "Itens do Sistema" M (A4h - 260) 12 true])
      (drawTableHeader M (A4h - 260 - 20)), A4h - 260 - 20 - 16, (0 : ℚ)) with hacc
    set r := List.foldl (rowStep env) acc0 itens with hr
    have hS : r.2.2 = (itens.map fun it => it.qtd * it.precoUnit).sum := by
      rw [hr, hacc]
      exact hsub _ _
    refine ⟨(ensureSpace r.1 r.2.1 90).2, ?_, ?_⟩
    · refine mem_addOps_head _ _ _ ?_
      rw [hS]
      simp [totalsOps]
    · refine mem_addOps_head _ _ _ ?_
      rw [hS]
      simp [totalsOps]

/-- `addOps` never empties the document. -/
theorem addOps_ne_nil (st : DocState) (ops : List Op) : addOps st ops ≠ [] := by
  cases st <;> simp [addOps]

/-- The default head of a non-empty list is a member. -/
theorem headD_mem {α : Type} (l : List α) (d : α) (h : l ≠ []) :
    l.headD d ∈ l := by
  cases l with
  | nil => exact absurd rfl h
  | cons a as => simp

/-! ## C8: description truncation -/

/-- C8: every item's rendered description cell (the text op at the
description column `M + 2`) is exactly the first 87 characters followed
by `"..."` when the description exceeds 90 characters, and the verbatim
description otherwise. -/
theorem drawItemsTable_desc_truncation (env : Env) (st0 : DocState)
    (itens : List EquipItem) (it : EquipItem) (hit : it ∈ itens) :
    ∃ p ∈ (drawItemsTable env st0 itens).1, ∃ y : ℚ,
      Op.text (if it.descricao.length > 90
          then it.descricao.take 87 ++ "..."
          else it.descricao)
        (M + 2) y 10 false ∈ p := by
  have hrow : ∀ (acc : DocState × ℚ × ℚ),
      ∃ p ∈ (rowStep env acc it).1, ∃ y : ℚ,
        Op.text (if it.descricao.length > 90
            then it.descricao.take 87 ++ "..."
            else it.descricao) (M + 2) y 10 false ∈ p := by
    intro acc
    have hne : (rowStep env acc it).1 ≠ [] := by
      simp only [rowStep]
      exact addOps_ne_nil _ _
    refine ⟨((rowStep env acc it).1).headD [], headD_mem _ _ hne,
      (ensureSpace acc.1 acc.2.1 (20 * 2)).2, ?_⟩
    simp only [rowStep]
    exact mem_addOps_head _ _ _ (by simp)
  have hfold : ∀ (its : List EquipItem) (acc : DocState × ℚ × ℚ),
      it ∈ its →
      ∃ p ∈ (List.foldl (rowStep env) acc its).1, ∃ y : ℚ,
        Op.text (if it.descricao.length > 90
            then it.descricao.take 87 ++ "..."
            else it.descricao) (M + 2) y 10 false ∈ p := by
    intro its
    induction its with
    | nil => intro acc h; simp at h
    | cons hd tl ih =>
      intro acc h
      rw [List.foldl_cons]
      rcases List.mem_cons.mp h with rfl | h'
      · rcases hrow acc with ⟨p, hp, y, hmem⟩
        rcases mem_pages_rowFold env tl (rowStep env acc it) _ ⟨p, hp, hmem⟩
          with ⟨p', hp', hmem'⟩
        exact ⟨p', hp', y, hmem'⟩
      · exact ih _ h'
  rcases hfold itens _ hit with ⟨p, hp, y, hmem⟩
  simp only [drawItemsTable, drawTotals]
  rcases mem_pages_addOps _ (totalsOps env _ _) _
    (mem_pages_ensureSpace _ _ 90 _ ⟨p, hp, hmem⟩) with ⟨p', hp', hmem'⟩
  exact ⟨p', hp', y, hmem'⟩

/-- A concrete environment with constant collaborators, used by the
witnesses below. -/
def envW : Env :=
  ⟨fun _ _ _ => 0, fun _ => "", fun _ _ => "", fun _ => "", fun _ => "",
   fun _ => none, fun _ => none⟩

/-- A 95-character description. -/
def desc95 : String := String.mk (List.replicate 95 'a')

/-- Witness for C8: one item with a 95-character description. -/
theorem drawItemsTable_desc_truncation_witness :
    ∃ p ∈ (drawItemsTable envW [[]] [⟨desc95, 1, 1⟩]).1, ∃ y : ℚ,
      Op.text (if desc95.length > 90 then desc95.take 87 ++ "..." else desc95)
        (M + 2) y 10 false ∈ p :=
  drawItemsTable_desc_truncation envW [[]] [⟨desc95, 1, 1⟩] ⟨desc95, 1, 1⟩
    (by simp)

/-! ## C9: KPI card layout -/

/-- Rectangle test: the cover draws rectangles only as KPI card boxes. -/
def isRect : Op → Bool
  | Op.rect _ _ _ _ => true
  | _ => false

/-- The x-coordinate of a rectangle op. -/
def rectX : Op → ℚ
  | Op.rect x _ _ _ => x
  | _ => 0

/-- C9: for every record and logo outcome the cover draws exactly four
KPI card boxes, at x-offsets `0, 132, 264, 396` from the row start `M`,
and `drawKpiCard` returns the next-card x of `x + 120 + 12`. -/
theorem drawCover_kpi_offsets (env : Env) (data : SolarProposalData)
    (logo : Option EmbeddedImage) :
    ((drawCoverOps env data logo).filter isRect).map rectX =
        [M, M + 132, M + 264, M + 396] ∧
      ∀ (x y : ℚ) (title value : String) (unit : Option String),
        (drawKpiCard x y title value unit).2 = x + 120 + 12 := by
  constructor
  · cases logo <;>
      cases h : data.kpis.tirPercent <;>
        simp [drawCoverOps, drawKpiCard, isRect, rectX, List.filter_append] <;>
          exact ⟨by ring, by ring⟩
  · intro x y title value unit
    rfl

/-! ## C2: logo decode failure -/

/-- A minimal proposal record for witnesses and counterexamples. -/
def dataMin : SolarProposalData :=
  ⟨"", "", ⟨"", none, none, none⟩, ⟨"", none, none⟩, ⟨0, 0, 0, 0, none⟩,
   ⟨0, 0, none⟩, [], none, none⟩

/-- Counterexample to C2: with a logo buffer rejected by both codecs
the build does not succeed — the error propagates to the caller
(`embedImageFlexible` only catches the PNG failure). -/
theorem buildSolarProposalPDF_logo_failure_counterexample :
    buildSolarProposalPDF envW dataMin ⟨some [0], none⟩ = Except.error () := by
  rfl

/-- C2 as amended: when the logo buffer fails both the PNG and the JPEG
decode, the whole build fails with the propagated error — no document
and no cover page are produced. -/
theorem buildSolarProposalPDF_logo_failure (env : Env)
    (data : SolarProposalData) (charts : Option Charts) (b : List ℕ)
    (hp : env.embedPng b = none) (hj : env.embedJpg b = none) :
    buildSolarProposalPDF env data ⟨some b, charts⟩ = Except.error () := by
  have hfail : embedImageFlexible env (some b) = Except.error () := by
    rw [embedImageFlexible, hp, hj]
  rw [buildSolarProposalPDF, drawCover, hfail]
  rfl

/-- Witness for the amended C2 at a concrete environment and record. -/
theorem buildSolarProposalPDF_logo_failure_witness :
    buildSolarProposalPDF envW dataMin ⟨some [7], none⟩ = Except.error () :=
  buildSolarProposalPDF_logo_failure envW dataMin none [7] rfl rfl

/-! ## C5: the pagination controller -/

/-- C5: `ensureSpace` allocates exactly one fresh page with the redrawn
table header and returns the fixed restart cursor
`A4h - M - 14 - 10` precisely when `cursorY - needed < M + 80`, and is
the identity otherwise; the row loop applies this check with a budget
of two row heights (`20 * 2`) and the totals phase with `90`, so their
page counts grow by one exactly under the same conditions. -/
theorem ensureSpace_spec (st : DocState) (cy needed : ℚ) :
    (cy - needed < M + 80 →
      ensureSpace st cy needed =
        (drawTableHeader M (A4h - M - 14) :: st, A4h - M - 14 - 10)) ∧
    (M + 80 ≤ cy - needed → ensureSpace st cy needed = (st, cy)) ∧
    (∀ (env : Env) (it : EquipItem) (sub : ℚ), st ≠ [] →
      (cy - 20 * 2 < M + 80 →
        ((rowStep env (st, cy, sub) it).1).length = st.length + 1) ∧
      (M + 80 ≤ cy - 20 * 2 →
        ((rowStep env (st, cy, sub) it).1).length = st.length)) ∧
    (∀ (env : Env) (sub : ℚ), st ≠ [] →
      (cy - 90 < M + 80 →
        (drawTotals env st cy sub).1.length = st.length + 1) ∧
      (M + 80 ≤ cy - 90 →
        (drawTotals env st cy sub).1.length = st.length)) := by
  refine ⟨?_, ?_, ?_, ?_⟩
  · intro h
    rw [ensureSpace, if_pos h]
  · intro h
    rw [ensureSpace, if_neg (not_lt.mpr h)]
  · intro env it sub hne
    constructor
    · intro h
      simp only [rowStep]
      rw [addOps_length _ _ (by rw [ensureSpace, if_pos h]; simp)]
      rw [ensureSpace, if_pos h]
      simp
    · intro h
      simp only [rowStep]
      rw [addOps_length _ _ (by rw [ensureSpace, if_neg (not_lt.mpr h)]; exact hne)]
      rw [ensureSpace, if_neg (not_lt.mpr h)]
  · intro env sub hne
    constructor
    · intro h
      simp only [drawTotals]
      rw [addOps_length _ _ (by rw [ensureSpace, if_pos h]; simp)]
      rw [ensureSpace, if_pos h]
      simp
    · intro h
      simp only [drawTotals]
      rw [addOps_length _ _ (by rw [ensureSpace, if_neg (not_lt.mpr h)]; exact hne)]
      rw [ensureSpace, if_neg (not_lt.mpr h)]

/-- Witness for C5: both branches of the space check at concrete
cursors. -/
theorem ensureSpace_spec_witness :
    ensureSpace [[]] 100 50 =
        (drawTableHeader M (A4h - M - 14) :: [[]], A4h - M - 14 - 10) ∧
      ensureSpace [[]] 300 50 = ([[]], 300) :=
  ⟨(ensureSpace_spec [[]] 100 50).1 (by norm_num [M]),
   (ensureSpace_spec [[]] 300 50).2.1 (by norm_num [M])⟩

/-! ## Footer and header recognition -/

/-- Recognises the footer divider: the only line drawn with thickness
`0.4`, at `y = M + 24`.  Table header rules use `0.6`, row separators
`0.3`, the totals rule `0.8` and the cover divider `1`. -/
def isFooterDiv : Op → Bool
  | Op.line _ y1 _ _ t => decide (t = 4 / 10) && decide (y1 = M + 24)
  | _ => false

/-- The header page content `ensureSpace` draws on every fresh page. -/
def headerPage : Page := drawTableHeader M (A4h - M - 14)

/-- A page whose first drawn ops are the repeated table header. -/
def startsWithHeader (p : Page) : Prop :=
  p.take headerPage.length = headerPage

/-- Prefixes survive appends on the right. -/
theorem startsWithHeader_append (p : Page) (ops : List Op)
    (h : startsWithHeader p) : startsWithHeader (p ++ ops) := by
  have hlen : headerPage.length ≤ p.length := by
    have := congrArg List.length h
    simp only [List.length_take] at this
    omega
  unfold startsWithHeader at *
  rw [List.take_append_of_le_length hlen]
  exact h

/-- `headerPage` itself starts with the header. -/
theorem startsWithHeader_headerPage : startsWithHeader headerPage := by
  unfold startsWithHeader
  simp

/-- A footer contains exactly one footer divider. -/
theorem addFooter_countP (company : Company) (n : ℕ) :
    (addFooter company n).countP isFooterDiv = 1 := by
  simp [addFooter, isFooterDiv, List.countP_cons]

/-- Table headers contain no footer divider (thickness `0.6`). -/
theorem drawTableHeader_countP (x y : ℚ) :
    (drawTableHeader x y).countP isFooterDiv = 0 := by
  have h : ((6 : ℚ) / 10 = 4 / 10) = False := by norm_num
  simp [drawTableHeader, isFooterDiv, List.countP_cons, h]

/-- The totals block contains no footer divider (thickness `0.8`). -/
theorem totalsOps_countP (env : Env) (subtotal cy : ℚ) :
    (totalsOps env subtotal cy).countP isFooterDiv = 0 := by
  have h : ((8 : ℚ) / 10 = 4 / 10) = False := by norm_num
  simp [totalsOps, isFooterDiv, List.countP_cons, h]

/-- Cover ops contain no footer divider (its divider has thickness 1). -/
theorem drawCoverOps_countP (env : Env) (data : SolarProposalData)
    (logo : Option EmbeddedImage) :
    (drawCoverOps env data logo).countP isFooterDiv = 0 := by
  have h : ((1 : ℚ) = 4 / 10) = False := by norm_num
  cases logo <;>
    simp [drawCoverOps, drawKpiCard, isFooterDiv, List.countP_append,
      List.countP_cons, h]

/-- Reduction of an `Except` bind on a success value. -/
theorem bind_ok {α β : Type} (a : α) (f : α → Except Unit β) :
    (Except.ok a >>= f : Except Unit β) = f a := rfl

/-- Reduction of an `Except` `pure`. -/
theorem pure_ok {β : Type} (b : β) : (pure b : Except Unit β) = Except.ok b := rfl

/-- Reduction of an `Except` bind on a failure value. -/
theorem bind_error {α β : Type} (e : Unit) (f : α → Except Unit β) :
    (Except.error e >>= f : Except Unit β) = Except.error e := rfl

/-- Ops of a successful charts block contain no footer divider (the
block draws no line at all). -/
theorem drawCharts_countP (env : Env) (charts : Option Charts)
    (ops : List Op) (hok : drawCharts env charts = Except.ok ops) :
    ops.countP isFooterDiv = 0 := by
  unfold drawCharts at hok
  cases hpay : embedImageFlexible env (charts.bind fun c => c.paybackChart) with
  | error e => rw [hpay] at hok; cases hok
  | ok pay =>
    cases hgen : embedImageFlexible env (charts.bind fun c => c.geracaoAnualChart) with
    | error e => rw [hpay, hgen] at hok; cases hok
    | ok gen =>
      rw [hpay, hgen, bind_ok, bind_ok, pure_ok] at hok
      simp only [Except.ok.injEq] at hok
      subst hok
      cases pay <;> cases gen <;>
        simp [isFooterDiv, List.countP_append, List.countP_cons]

/-- Ops of a successful bullet run contain no footer divider. -/
theorem drawBullets_countP (env : Env) (x width : ℚ) :
    ∀ (items : List String) (y : ℚ) (r : List Op × ℚ),
      drawBullets env x width items y = Except.ok r →
      r.1.countP isFooterDiv = 0 := by
  intro items
  induction items with
  | nil =>
    intro y r h
    simp only [drawBullets, Except.ok.injEq] at h
    subst h
    simp
  | cons it its ih =>
    intro y r h
    simp only [drawBullets] at h
    cases h1 : drawBulletItem env x y width it with
    | error e => rw [h1] at h; cases h
    | ok r1 =>
      rw [h1, bind_ok] at h
      cases h2 : drawBullets env x width its r1.2 with
      | error e =>
        rw [h2, bind_error] at h
        cases h
      | ok r2 =>
        rw [h2, bind_ok, pure_ok] at h
        simp only [Except.ok.injEq] at h
        subst h
        have hr1 : r1.1.countP isFooterDiv = 0 := by
          unfold drawBulletItem at h1
          cases hl : wrapLines it.data (width - 16)
              (fun u => env.widthOfTextAtSize false (String.mk u) 10) with
          | nil => rw [hl] at h1; cases h1
          | cons l0 rest =>
            rw [hl] at h1
            simp only [Except.ok.injEq] at h1
            subst h1
            simp only [List.countP_cons, isFooterDiv]
            rw [List.countP_eq_zero.mpr]
            · rfl
            · intro op hop
              simp only [List.mem_map] at hop
              rcases hop with ⟨q, _, rfl⟩
              simp [isFooterDiv]
        rw [List.countP_append, hr1, ih _ _ h2]

/-- Ops of a successful bulleted section contain no footer divider. -/
theorem drawSectionBullets_countP (env : Env) (title : String)
    (bullets : List String) (startY : ℚ) (r : List Op × ℚ)
    (hok : drawSectionBullets env title bullets startY = Except.ok r) :
    r.1.countP isFooterDiv = 0 := by
  unfold drawSectionBullets at hok
  cases h1 : drawBullets env M (A4w - 2 * M) bullets (startY - 18) with
  | error e => rw [h1] at hok; cases hok
  | ok rb =>
    rw [h1] at hok
    rw [bind_ok, pure_ok] at hok
    simp only [Except.ok.injEq] at hok
    subst hok
    simp only [List.countP_cons, isFooterDiv]
    rw [drawBullets_countP env M (A4w - 2 * M) bullets (startY - 18) rb h1]
    simp

/-- A row step is: ensure space with a `20 * 2` budget, append a
footer-divider-free batch of ops to the current page, descend one row
height, and accumulate the line total. -/
theorem rowStep_spec (env : Env) (it : EquipItem) (st : DocState)
    (cy sub : ℚ) :
    ∃ ops : List Op, ops.countP isFooterDiv = 0 ∧
      rowStep env (st, cy, sub) it =
        (addOps (ensureSpace st cy (20 * 2)).1 ops,
          (ensureSpace st cy (20 * 2)).2 - 20,
          sub + it.qtd * it.precoUnit) := by
  refine ⟨_, ?_, rfl⟩
  have h310 : ((3 : ℚ) / 10 = 4 / 10) = False := by norm_num
  simp [isFooterDiv, List.countP_cons, h310]

/-- Structure of the row loop: starting from a non-empty document with
head page `h` and cursor at least `140`, it produces some continuation
pages (each starting with the redrawn header and free of footer
dividers) on top of the head page extended by footer-divider-free ops;
the final cursor stays at least `140`, and each page turn accounts for
at most `638` cursor units, bounding the page count from below. -/
theorem rowFold_struct (env : Env) :
    ∀ (itens : List EquipItem) (h : Page) (t : List Page) (cy sub : ℚ),
      140 ≤ cy →
      ∃ (newPs : List Page) (extra : List Op),
        (List.foldl (rowStep env) (h :: t, cy, sub) itens).1 =
          newPs ++ (h ++ extra) :: t ∧
        (∀ p ∈ newPs, startsWithHeader p ∧ p.countP isFooterDiv = 0) ∧
        extra.countP isFooterDiv = 0 ∧
        140 ≤ (List.foldl (rowStep env) (h :: t, cy, sub) itens).2.1 ∧
        20 * (itens.length : ℚ) ≤
          cy - (List.foldl (rowStep env) (h :: t, cy, sub) itens).2.1 +
            (newPs.length : ℚ) * 638 := by
  intro itens
  induction itens with
  | nil =>
    intro h t cy sub hcy
    exact ⟨[], [], by simp, by simp, by simp, hcy, by simp⟩
  | cons it its ih =>
    intro h t cy sub hcy
    rw [List.foldl_cons]
    rcases rowStep_spec env it (h :: t) cy sub with ⟨ops, hops, hstep⟩
    rw [hstep]
    have hA : A4h = 84189 / 100 := rfl
    have hM : M = 40 := rfl
    by_cases hbr : cy - 20 * 2 < M + 80
    · rw [ensureSpace, if_pos hbr]
      simp only [addOps]
      have hhp : drawTableHeader M (A4h - M - 14) = headerPage := rfl
      rw [hhp]
      rcases ih (headerPage ++ ops) (h :: t) (A4h - M - 14 - 10 - 20)
          (sub + it.qtd * it.precoUnit)
          (by rw [hA, hM]; norm_num) with
        ⟨nps, ex, heq, hhd, hex, hcy', hbound⟩
      refine ⟨nps ++ [headerPage ++ ops ++ ex], [], ?_, ?_, by simp, hcy', ?_⟩
      · rw [heq]
        simp [List.append_assoc]
      · intro p hp
        rcases List.mem_append.mp hp with hp1 | hp2
        · exact hhd p hp1
        · rcases List.mem_singleton.mp hp2 with rfl
          constructor
          · exact startsWithHeader_append _ _
              (startsWithHeader_append _ _ startsWithHeader_headerPage)
          · simp only [List.countP_append, hops, hex]
            rw [show (headerPage : Page).countP isFooterDiv = 0 from
              drawTableHeader_countP _ _]
      · simp only [List.length_append, List.length_singleton, List.length_cons]
        push_cast
        rw [hA, hM] at hbound ⊢
        linarith [hbound, hcy]
    · rw [ensureSpace, if_neg hbr]
      simp only [addOps]
      have hcy160 : (160 : ℚ) ≤ cy := by
        rw [hM] at hbr
        push_neg at hbr
        linarith
      rcases ih (h ++ ops) t (cy - 20) (sub + it.qtd * it.precoUnit)
          (by linarith) with ⟨nps, ex, heq, hhd, hex, hcy', hbound⟩
      refine ⟨nps, ops ++ ex, ?_, hhd, ?_, hcy', ?_⟩
      · rw [heq]
        simp [List.append_assoc]
      · simp [List.countP_append, hops, hex]
      · simp only [List.length_cons]
        push_cast
        linarith [hbound]

/-- Structure of the whole items-table section over a non-empty
document: continuation pages (header-first, footer-divider-free) on top
of the extended head page, with the page-count bound
`20 * N ≤ 405.89 + newPages * 638`. -/
theorem drawItemsTable_struct (env : Env) (itens : List EquipItem)
    (h : Page) (t : List Page) :
    ∃ (newPs : List Page) (extra : List Op),
      (drawItemsTable env (h :: t) itens).1 = newPs ++ (h ++ extra) :: t ∧
      (∀ p ∈ newPs, startsWithHeader p ∧ p.countP isFooterDiv = 0) ∧
      extra.countP isFooterDiv = 0 ∧
      20 * (itens.length : ℚ) ≤ 40589 / 100 + (newPs.length : ℚ) * 638 := by
  have hA : A4h = 84189 / 100 := rfl
  have hM : M = 40 := rfl
  simp only [drawItemsTable, addOps]
  rcases rowFold_struct env itens
      ((h ++ [Op.text "Itens do Sistema" M (A4h - 260) 12 true]) ++
        drawTableHeader M (A4h - 260 - 20))
      t (A4h - 260 - 20 - 16) 0 (by rw [hA]; norm_num) with
    ⟨nps, ex, heq, hhd, hex, hcyE, hbound⟩
  set r := List.foldl (rowStep env)
    ((h ++ [Op.text "Itens do Sistema" M (A4h - 260) 12 true] ++
      drawTableHeader M (A4h - 260 - 20)) :: t,
      A4h - 260 - 20 - 16, (0 : ℚ)) itens with hr
  simp only [drawTotals]
  have hcount : ([Op.text "Itens do Sistema" M (A4h - 260) 12 true] ++
      drawTableHeader M (A4h - 260 - 20) ++ ex).countP isFooterDiv = 0 := by
    simp only [List.countP_append, hex, drawTableHeader_countP]
    simp [isFooterDiv, List.countP_cons]
  have hboundF : 20 * (itens.length : ℚ) ≤
      40589 / 100 + (nps.length : ℚ) * 638 := by
    rw [hA] at hbound
    linarith [hbound, hcyE]
  by_cases htot : r.2.1 - 90 < M + 80
  · rw [ensureSpace, if_pos htot]
    simp only [addOps]
    have hhp : drawTableHeader M (A4h - M - 14) = headerPage := rfl
    rw [hhp]
    refine ⟨(headerPage ++ totalsOps env r.2.2 (A4h - M - 14 - 10)) :: nps,
      [Op.text "Itens do Sistema" M (A4h - 260) 12 true] ++
        drawTableHeader M (A4h - 260 - 20) ++ ex, ?_, ?_, hcount, ?_⟩
    · rw [heq]
      simp [List.append_assoc]
    · intro p hp
      rcases List.mem_cons.mp hp with rfl | hp'
      · refine ⟨startsWithHeader_append _ _ startsWithHeader_headerPage, ?_⟩
        simp only [List.countP_append, totalsOps_countP]
        rw [show (headerPage : Page).countP isFooterDiv = 0 from
          drawTableHeader_countP _ _]
      · exact hhd p hp'
    · simp only [List.length_cons]
      push_cast
      linarith [hboundF]
  · rw [ensureSpace, if_neg htot]
    cases hnps : nps with
    | nil =>
      rw [hnps] at heq
      simp only [List.nil_append] at heq
      rw [heq]
      simp only [addOps]
      refine ⟨[],
        [Op.text "Itens do Sistema" M (A4h - 260) 12 true] ++
          drawTableHeader M (A4h - 260 - 20) ++ ex ++
          totalsOps env r.2.2 r.2.1, ?_, by simp, ?_, ?_⟩
      · simp [List.append_assoc]
      · simp only [List.countP_append, hex, drawTableHeader_countP,
          totalsOps_countP]
        simp [isFooterDiv, List.countP_cons]
      · rw [hnps] at hboundF
        simpa using hboundF
    | cons q qs =>
      rw [hnps] at heq
      rw [heq]
      simp only [List.cons_append, addOps]
      refine ⟨(q ++ totalsOps env r.2.2 r.2.1) :: qs,
        [Op.text "Itens do Sistema" M (A4h - 260) 12 true] ++
          drawTableHeader M (A4h - 260 - 20) ++ ex, ?_, ?_, hcount, ?_⟩
      · simp [List.append_assoc]
      · intro p hp
        rcases List.mem_cons.mp hp with rfl | hp'
        · have hq := hhd q (by rw [hnps]; simp)
          exact ⟨startsWithHeader_append _ _ hq.1,
            by simp [List.countP_append, hq.2, totalsOps_countP]⟩
        · exact hhd p (by rw [hnps]; exact List.mem_cons_of_mem q hp')
      · rw [hnps] at hboundF
        simpa using hboundF

/-- Reduction of `Except.map` on a success value. -/
theorem map_ok {α β : Type} (f : α → β) (a : α) :
    (Except.ok a : Except Unit α).map f = Except.ok (f a) := rfl

/-- Reduction of `Except.map` on a failure value. -/
theorem map_error {α β : Type} (f : α → β) (e : Unit) :
    (Except.error e : Except Unit α).map f = Except.error e := rfl

/-- A successful cover is footer-divider-free. -/
theorem drawCover_countP (env : Env) (data : SolarProposalData)
    (assets : Assets) (c : List Op)
    (h : drawCover env data assets = Except.ok c) :
    c.countP isFooterDiv = 0 := by
  unfold drawCover at h
  cases hl : embedImageFlexible env assets.logo with
  | error e => rw [hl, bind_error] at h; cases h
  | ok logo =>
    rw [hl, bind_ok, pure_ok] at h
    simp only [Except.ok.injEq] at h
    subst h
    exact drawCoverOps_countP env data logo

/-- A successful `premissasTecnicas` stage is footer-divider-free. -/
theorem premStep_countP (env : Env) (data : SolarProposalData) (y : ℚ)
    (r : List Op × ℚ) (h : premStep env data y = Except.ok r) :
    r.1.countP isFooterDiv = 0 := by
  unfold premStep at h
  cases hpt : data.premissasTecnicas with
  | none =>
    simp only [hpt, pure_ok, Except.ok.injEq] at h
    subst h
    simp
  | some l =>
    simp only [hpt] at h
    by_cases hl : l ≠ []
    · rw [if_pos hl] at h
      cases hs : drawSectionBullets env "Premissas Técnicas" l y with
      | error e => rw [hs, map_error] at h; cases h
      | ok rp =>
        rw [hs, map_ok] at h
        simp only [Except.ok.injEq] at h
        subst h
        exact drawSectionBullets_countP env _ l y rp hs
    · rw [if_neg hl, pure_ok] at h
      simp only [Except.ok.injEq] at h
      subst h
      simp

/-- A successful `observacoes` stage is footer-divider-free. -/
theorem obsStep_countP (env : Env) (data : SolarProposalData) (y : ℚ)
    (r : List Op × ℚ) (h : obsStep env data y = Except.ok r) :
    r.1.countP isFooterDiv = 0 := by
  unfold obsStep at h
  cases hpt : data.observacoes with
  | none =>
    simp only [hpt, pure_ok, Except.ok.injEq] at h
    subst h
    simp
  | some l =>
    simp only [hpt] at h
    by_cases hl : l ≠ []
    · rw [if_pos hl] at h
      exact drawSectionBullets_countP env _ l y r h
    · rw [if_neg hl, pure_ok] at h
      simp only [Except.ok.injEq] at h
      subst h
      simp

/-- Skeleton of every successful build: a cover page with exactly one
footer (numbered 1), the table pages (the fresh table start page
extended by footer-divider-free ops, plus header-first continuation
pages), footer 2 appended to the head of the table state, and a charts
page with exactly one footer (numbered 3); with the pagination bound
on the continuation page count. -/
theorem build_skeleton (env : Env) (data : SolarProposalData)
    (assets : Assets) (doc : List Page)
    (hok : buildSolarProposalPDF env data assets = Except.ok doc) :
    ∃ (p1 chartsP : Page) (newPs : List Page) (extra : List Op),
      p1.countP isFooterDiv = 1 ∧
      Op.text (toString 1) (A4w - M - 10) (M + 10) 9 false ∈ p1 ∧
      chartsP.countP isFooterDiv = 1 ∧
      Op.text (toString 3) (A4w - M - 10) (M + 10) 9 false ∈ chartsP ∧
      (∀ p ∈ newPs, startsWithHeader p ∧ p.countP isFooterDiv = 0) ∧
      extra.countP isFooterDiv = 0 ∧
      20 * (data.itens.length : ℚ) ≤ 40589 / 100 + (newPs.length : ℚ) * 638 ∧
      doc = (chartsP ::
        addOps (newPs ++ extra :: [p1]) (addFooter data.company 2)).reverse := by
  unfold buildSolarProposalPDF at hok
  cases hc : drawCover env data assets with
  | error e => rw [hc, bind_error] at hok; cases hok
  | ok coverOps =>
    rw [hc, bind_ok] at hok
    cases hch : drawCharts env assets.charts with
    | error e => rw [hch, bind_error] at hok; cases hok
    | ok chartOps =>
      rw [hch, bind_ok] at hok
      cases hpr : premStep env data (A4h - 430) with
      | error e => rw [hpr, bind_error] at hok; cases hok
      | ok prem =>
        rw [hpr, bind_ok] at hok
        cases hob : obsStep env data prem.2 with
        | error e => rw [hob, bind_error] at hok; cases hok
        | ok obs =>
          rw [hob, bind_ok, pure_ok] at hok
          simp only [Except.ok.injEq] at hok
          rcases drawItemsTable_struct env data.itens []
            [coverOps ++ addFooter data.company 1] with
            ⟨newPs, extra, heq, hhd, hex, hbound⟩
          refine ⟨coverOps ++ addFooter data.company 1,
            chartOps ++ prem.1 ++ obs.1 ++ addFooter data.company 3,
            newPs, extra, ?_, ?_, ?_, ?_, hhd, hex, hbound, ?_⟩
          · rw [List.countP_append, addFooter_countP,
              drawCover_countP env data assets coverOps hc]
          · simp [addFooter]
          · rw [List.countP_append, List.countP_append, List.countP_append,
              addFooter_countP, drawCharts_countP env assets.charts chartOps hch,
              premStep_countP env data _ prem hpr,
              obsStep_countP env data _ obs hob]
          · simp [addFooter]
          · rw [← hok, heq]
            simp

/-! ## C6: page-count lower bound and repeated headers -/

/-- C6: when the rows alone (`N` items of fixed height 20) exceed one
page's usable height (`A4h - 2M = 761.89`), the built document has at
least `⌈20N / 761.89⌉` pages, and every overflow page that carries
table rows (every page after the first two and before the last) begins
with the redrawn table header, drawn before any row on that page. -/
theorem buildSolarProposalPDF_pagination (env : Env)
    (data : SolarProposalData) (assets : Assets) (doc : List Page)
    (hok : buildSolarProposalPDF env data assets = Except.ok doc)
    (_hover : 76189 < 2000 * data.itens.length) :
    ⌈20 * (data.itens.length : ℚ) / (76189 / 100)⌉ ≤ (doc.length : ℤ) ∧
      ∀ p ∈ (doc.drop 2).dropLast, startsWithHeader p := by
  rcases build_skeleton env data assets doc hok with
    ⟨p1, chartsP, newPs, extra, _, _, _, _, hhd, _, hbound, hdoc⟩
  cases newPs with
  | nil =>
    have hdoc3 : doc = [p1, extra ++ addFooter data.company 2, chartsP] := by
      rw [hdoc]
      simp [addOps]
    constructor
    · rw [hdoc3]
      simp only [List.length_cons, List.length_nil]
      refine Int.ceil_le.mpr ?_
      rw [div_le_iff₀ (by norm_num : (0 : ℚ) < 76189 / 100)]
      push_cast
      simp only [List.length_nil, Nat.cast_zero, zero_mul, add_zero] at hbound
      linarith [hbound]
    · rw [hdoc3]
      intro p hp
      simp at hp
  | cons q qs =>
    have hq := hhd q (by simp)
    have hqs : ∀ p ∈ qs, startsWithHeader p ∧ p.countP isFooterDiv = 0 :=
      fun p hp => hhd p (List.mem_cons_of_mem q hp)
    have hdocE : doc = p1 :: extra ::
        (qs.reverse ++ [q ++ addFooter data.company 2] ++ [chartsP]) := by
      rw [hdoc]
      simp [addOps, List.reverse_append]
    constructor
    · have hlen : doc.length = qs.length + 4 := by
        rw [hdocE]
        simp
      rw [hlen]
      refine Int.ceil_le.mpr ?_
      rw [div_le_iff₀ (by norm_num : (0 : ℚ) < 76189 / 100)]
      push_cast
      simp only [List.length_cons] at hbound
      push_cast at hbound
      linarith [hbound]
    · intro p hp
      rw [hdocE] at hp
      simp only [List.drop, List.dropLast_concat] at hp
      rcases List.mem_append.mp hp with hp1 | hp2
      · have : p ∈ qs := List.mem_reverse.mp hp1
        exact (hqs p this).1
      · rcases List.mem_singleton.mp hp2 with rfl
        exact startsWithHeader_append _ _ hq.1

/-- A list of footer-divider-free pages maps to a zero count list. -/
theorem map_countP_zero :
    ∀ l : List Page, (∀ p ∈ l, p.countP isFooterDiv = 0) →
      l.map (fun p => p.countP isFooterDiv) = List.replicate l.length 0 := by
  intro l
  induction l with
  | nil => intro _; simp
  | cons p ps ih =>
    intro h
    rw [List.map_cons, h p (by simp), ih (fun p hp => h p (List.mem_cons_of_mem _ hp))]
    simp [List.replicate]

/-! ## C7: footers per page -/

/-- C7 as amended: footers appear exactly on the cover page (number 1),
on the page where the items table ends — the second-to-last page —
(number 2), and on the charts page — the last — (number 3); overflow
pages created mid-table carry none.  In a non-overflow build the
replicate block is empty and every one of the three pages carries
exactly one numbered footer. -/
theorem buildSolarProposalPDF_footers (env : Env)
    (data : SolarProposalData) (assets : Assets) (doc : List Page)
    (hok : buildSolarProposalPDF env data assets = Except.ok doc) :
    doc.map (fun p => p.countP isFooterDiv) =
        1 :: (List.replicate (doc.length - 3) 0 ++ [1, 1]) ∧
      Op.text (toString 1) (A4w - M - 10) (M + 10) 9 false ∈ doc.headD [] ∧
      Op.text (toString 2) (A4w - M - 10) (M + 10) 9 false ∈
        doc.dropLast.getLastD [] ∧
      Op.text (toString 3) (A4w - M - 10) (M + 10) 9 false ∈ doc.getLastD [] := by
  rcases build_skeleton env data assets doc hok with
    ⟨p1, chartsP, newPs, extra, hp1c, hp1m, hchc, hchm, hhd, hex, _, hdoc⟩
  have hf2 : Op.text (toString 2) (A4w - M - 10) (M + 10) 9 false ∈
      addFooter data.company 2 := by simp [addFooter]
  cases newPs with
  | nil =>
    have hdoc3 : doc = [p1, extra ++ addFooter data.company 2, chartsP] := by
      rw [hdoc]
      simp [addOps]
    rw [hdoc3]
    refine ⟨?_, by simpa using hp1m, ?_, by simpa using hchm⟩
    · simp [List.countP_append, hp1c, hchc, hex, addFooter_countP]
    · simp only [List.dropLast, List.getLastD]
      exact List.mem_append_right _ hf2
  | cons q qs =>
    have hq := hhd q (by simp)
    have hqs : ∀ p ∈ qs.reverse, p.countP isFooterDiv = 0 :=
      fun p hp => (hhd p (List.mem_cons_of_mem q (List.mem_reverse.mp hp))).2
    have hdocE : doc = (p1 :: extra ::
        (qs.reverse ++ [q ++ addFooter data.company 2])) ++ [chartsP] := by
      rw [hdoc]
      simp [addOps, List.reverse_append]
    have hlen : doc.length = qs.length + 4 := by
      rw [hdocE]; simp
    refine ⟨?_, ?_, ?_, ?_⟩
    · rw [hlen, hdocE]
      simp only [List.map_append, List.map_cons, List.countP_append]
      rw [map_countP_zero qs.reverse hqs, hp1c, hchc, hex, hq.2,
        addFooter_countP]
      rw [show qs.length + 4 - 3 = qs.length + 1 from by omega]
      simp [List.replicate_succ]
    · rw [hdocE]
      simpa using hp1m
    · rw [hdocE, List.dropLast_concat]
      rw [show (p1 :: extra :: (qs.reverse ++ [q ++ addFooter data.company 2]))
          = (p1 :: extra :: qs.reverse) ++ [q ++ addFooter data.company 2]
        from by simp]
      rw [List.getLastD_concat]
      exact List.mem_append_right _ hf2
    · rw [hdocE, List.getLastD_concat]
      exact hchm

/-! ## Witness inputs -/

/-- A record with `n` identical unit items and nothing optional. -/
def dataN (n : ℕ) : SolarProposalData :=
  ⟨"", "", ⟨"", none, none, none⟩, ⟨"", none, none⟩, ⟨0, 0, 0, 0, none⟩,
   ⟨0, 0, none⟩, List.replicate n ⟨"", 1, 1⟩, none, none⟩

/-- The 39-item build (rows alone exceed one page's usable height). -/
def doc39 : List Page :=
  (buildSolarProposalPDF envW (dataN 39) ⟨none, none⟩).toOption.getD []

/-- Witness for C6 at a 39-item overflowing build. -/
theorem buildSolarProposalPDF_pagination_witness :
    ⌈20 * (((dataN 39).itens.length : ℚ)) / (76189 / 100)⌉ ≤
        ((doc39).length : ℤ) ∧
      ∀ p ∈ (doc39.drop 2).dropLast, startsWithHeader p :=
  buildSolarProposalPDF_pagination envW (dataN 39) ⟨none, none⟩ doc39
    (by rfl) (by decide)

/-- The 21-item build: one overflow page. -/
def doc21 : List Page :=
  (buildSolarProposalPDF envW (dataN 21) ⟨none, none⟩).toOption.getD []

/-- Counterexample to C7 as stated: a 21-item build succeeds, has four
pages, and its second page (the first table page) carries no footer at
all. -/
theorem buildSolarProposalPDF_footer_counterexample :
    (buildSolarProposalPDF envW (dataN 21) ⟨none, none⟩).isOk = true ∧
      doc21.length = 4 ∧
      ((doc21.get? 1).getD []).countP isFooterDiv = 0 := by
  set_option maxRecDepth 100000 in with_unfolding_all decide

/-- The 2-item build: no overflow, three pages. -/
def doc3 : List Page :=
  (buildSolarProposalPDF envW (dataN 2) ⟨none, none⟩).toOption.getD []

/-- Witness for the amended C7 at a concrete three-page build. -/
theorem buildSolarProposalPDF_footers_witness :
    doc3.map (fun p => p.countP isFooterDiv) =
        1 :: (List.replicate (doc3.length - 3) 0 ++ [1, 1]) ∧
      Op.text (toString 1) (A4w - M - 10) (M + 10) 9 false ∈ doc3.headD [] ∧
      Op.text (toString 2) (A4w - M - 10) (M + 10) 9 false ∈
        doc3.dropLast.getLastD [] ∧
      Op.text (toString 3) (A4w - M - 10) (M + 10) 9 false ∈ doc3.getLastD [] :=
  buildSolarProposalPDF_footers envW (dataN 2) ⟨none, none⟩ doc3 (by rfl)

end SolarPDF
